import Mathlib

/-!
# A shallow embedding of the `dbase` dBASE/FoxPro decoder

This file models the Rust sources `src/fields.rs`, `src/header.rs` and
`src/lib.rs` of the `srenauld/dbase` crate as executable Lean definitions and
proves properties of the decoder against them.

Modelling conventions:
* Byte streams are `List Nat`; multi-byte integers are assembled with explicit
  little-endian and big-endian arithmetic.
* Fallible Rust code returning `io::Error` becomes `Except Failure _`.  Rust
  panics (integer-overflow checks, out-of-range `Vec::drain`, and the
  assertions inside chrono's `Utc.ymd` / `Date::and_hms`) are modelled by the
  distinguished outcome `Failure.panicked`, which the record iterator
  propagates instead of swallowing (a panic unwinds past `Result::ok`).
* The floating-point arithmetic of `to_julian_date` and `FieldTypeT::parse`
  operates on integers whose magnitude stays far below 2^53, where every
  product is exact and every quotient is farther from an integer than half an
  ulp; it is therefore modelled by exact integer floor arithmetic
  (`Int.fdiv`, matching `f64::floor`).  `as u32` / `as i32` casts from `f64`
  are modelled by their saturating semantics.
* `f64` string parsing (`FieldTypeOldNumeric`) is modelled by the decimal
  grammar with exact rational values; IEEE rounding and the non-finite
  literals (`inf`, `NaN`) are elided — no claim in this development depends
  on numeric field values.
-/

set_option linter.unusedVariables false

/-- Outcome kinds of fallible operations: the `io::ErrorKind`s actually
constructed by the sources, plus `panicked` for Rust panics. -/
inductive Failure where
  | invalidData
  | invalidInput
  | unexpectedEof
  | notFound
  | panicked
deriving DecidableEq, Repr

instance {ε α : Type} [DecidableEq ε] [DecidableEq α] :
    DecidableEq (Except ε α) := fun a b =>
  match a, b with
  | .error e, .error f =>
    decidable_of_iff (e = f) ⟨fun h => by rw [h], fun h => by injection h⟩
  | .ok x, .ok y =>
    decidable_of_iff (x = y) ⟨fun h => by rw [h], fun h => by injection h⟩
  | .error _, .ok _ => isFalse (fun h => by injection h)
  | .ok _, .error _ => isFalse (fun h => by injection h)

/-- Little-endian 16-bit read (`byteorder::LittleEndian::read_u16`). -/
def le16 (b0 b1 : Nat) : Nat := b0 + 256 * b1

/-- Little-endian 32-bit read (`byteorder::LittleEndian::read_u32`). -/
def le32 (b0 b1 b2 b3 : Nat) : Nat :=
  b0 + 256 * b1 + 65536 * b2 + 16777216 * b3

/-- Big-endian 32-bit read (`byteorder::BigEndian::read_u32`). -/
def be32 (b0 b1 b2 b3 : Nat) : Nat :=
  16777216 * b0 + 65536 * b1 + 256 * b2 + b3

/-- Reinterpret an unsigned 32-bit value as signed (`i32` two's complement). -/
def toI32 (n : Nat) : Int :=
  if n < 2147483648 then (n : Int) else (n : Int) - 4294967296

/-- Saturating `f64 as u32` cast on an exact integer value. -/
def satU32 (i : Int) : Nat :=
  if i < 0 then 0 else min i.toNat 4294967295

/-- Saturating `f64 as i32` cast on an exact integer value. -/
def satI32 (i : Int) : Int :=
  max (-2147483648) (min i 2147483647)

/-- Rust `char::is_whitespace` (the Unicode `White_Space` property). -/
def isRustWhitespace (c : Char) : Bool :=
  let n := c.toNat
  decide ((9 ≤ n ∧ n ≤ 13) ∨ n = 32 ∨ n = 133 ∨ n = 160 ∨ n = 5760 ∨
    (8192 ≤ n ∧ n ≤ 8202) ∨ n = 8232 ∨ n = 8233 ∨ n = 8239 ∨ n = 8287 ∨
    n = 12288)

/-- Rust `str::trim`: drop leading and trailing whitespace. -/
def rustTrim (l : List Char) : List Char :=
  ((l.dropWhile isRustWhitespace).reverse.dropWhile isRustWhitespace).reverse

/-- Rust `str::trim_start`: drop leading whitespace only. -/
def rustTrimStart (l : List Char) : List Char :=
  l.dropWhile isRustWhitespace

/-- Strict UTF-8 decoding of a byte list (`String::from_utf8`), rejecting
overlong forms, surrogates and out-of-range code points exactly as Rust's
validator does. -/
def utf8Decode : List Nat → Option (List Char)
  | [] => some []
  | b0 :: rest =>
    if b0 < 128 then
      (utf8Decode rest).map (fun cs => Char.ofNat b0 :: cs)
    else if 194 ≤ b0 ∧ b0 ≤ 223 then
      match rest with
      | b1 :: rest1 =>
        if 128 ≤ b1 ∧ b1 ≤ 191 then
          (utf8Decode rest1).map
            (fun cs => Char.ofNat ((b0 - 192) * 64 + (b1 - 128)) :: cs)
        else none
      | [] => none
    else if 224 ≤ b0 ∧ b0 ≤ 239 then
      match rest with
      | b1 :: b2 :: rest2 =>
        let lo1 : Nat := if b0 = 224 then 160 else 128
        let hi1 : Nat := if b0 = 237 then 159 else 191
        if (lo1 ≤ b1 ∧ b1 ≤ hi1) ∧ (128 ≤ b2 ∧ b2 ≤ 191) then
          (utf8Decode rest2).map
            (fun cs =>
              Char.ofNat ((b0 - 224) * 4096 + (b1 - 128) * 64 + (b2 - 128)) :: cs)
        else none
      | _ => none
    else if 240 ≤ b0 ∧ b0 ≤ 244 then
      match rest with
      | b1 :: b2 :: b3 :: rest3 =>
        let lo1 : Nat := if b0 = 240 then 144 else 128
        let hi1 : Nat := if b0 = 244 then 143 else 191
        if (lo1 ≤ b1 ∧ b1 ≤ hi1) ∧ (128 ≤ b2 ∧ b2 ≤ 191) ∧
            (128 ≤ b3 ∧ b3 ≤ 191) then
          (utf8Decode rest3).map
            (fun cs =>
              Char.ofNat ((b0 - 240) * 262144 + (b1 - 128) * 4096 +
                (b2 - 128) * 64 + (b3 - 128)) :: cs)
        else none
      | _ => none
    else none

/-- Digit-string value helper for the `FromStr` models. -/
def digitsToNat : List Char → Option Nat
  | [] => none
  | cs =>
    if cs.all Char.isDigit then
      some (cs.foldl (fun acc c => acc * 10 + (c.toNat - 48)) 0)
    else none

/-- Rust `u32::from_str`: optional `+`, decimal digits, range check. -/
def parseU32 (cs : List Char) : Option Nat :=
  let body := match cs with
    | '+' :: r => r
    | r => r
  match digitsToNat body with
  | some n => if n < 4294967296 then some n else none
  | none => none

/-- Rust `i32::from_str`: optional sign, decimal digits, range check. -/
def parseI32 (cs : List Char) : Option Int :=
  match cs with
  | '-' :: r =>
    match digitsToNat r with
    | some n => if n ≤ 2147483648 then some (-(n : Int)) else none
    | none => none
  | '+' :: r =>
    match digitsToNat r with
    | some n => if n < 2147483648 then some ((n : Int)) else none
    | none => none
  | r =>
    match digitsToNat r with
    | some n => if n < 2147483648 then some ((n : Int)) else none
    | none => none

/-- Proleptic-Gregorian leap year (chrono's rule). -/
def isLeapYear (y : Int) : Bool :=
  decide (y % 4 = 0 ∧ (¬ y % 100 = 0 ∨ y % 400 = 0))

/-- Days in a month of the proleptic Gregorian calendar; `0` for an invalid
month number. -/
def daysInMonth (y : Int) (m : Nat) : Nat :=
  match m with
  | 1 => 31
  | 2 => if isLeapYear y then 29 else 28
  | 3 => 31
  | 4 => 30
  | 5 => 31
  | 6 => 30
  | 7 => 31
  | 8 => 31
  | 9 => 30
  | 10 => 31
  | 11 => 30
  | 12 => 31
  | _ => 0

/-- The validity check performed by chrono's `Utc.ymd` (which panics when it
fails): month and day in range for the proleptic Gregorian calendar and the
year within chrono's representable span. -/
def chronoValidYmd (y : Int) (m d : Nat) : Bool :=
  decide ((-262144 ≤ y ∧ y ≤ 262143) ∧ 1 ≤ m ∧ m ≤ 12 ∧ 1 ≤ d ∧
    d ≤ daysInMonth y m)

/-- The pure arithmetic of `to_julian_date` (src/fields.rs:96-107): the
standard Julian-day reduction.  Every `f64` operation there is exact at these
magnitudes, and `f64::floor` is floor division (`Int.fdiv`). -/
def julianYMD (input : Nat) : Int × Int × Int :=
  let s1 : Int := (input : Int) + 68569
  let n : Int := Int.fdiv (4 * s1) 146097
  let s2 : Int := s1 - Int.fdiv (146097 * n + 3) 4
  let i : Int := Int.fdiv (4000 * (s2 + 1)) 1461001
  let s3 : Int := s2 - Int.fdiv (1461 * i) 4 + 31
  let q : Int := Int.fdiv (80 * s3) 2447
  let d : Int := s3 - Int.fdiv (2447 * q) 80
  let s4 : Int := Int.fdiv q 11
  let m : Int := q + 2 - 12 * s4
  let j : Int := 100 * (n - 49) + i + s4
  (j, m, d)

/-- Model of `to_julian_date` (src/fields.rs:96-109): performs the reduction, casts
`(j as i32, m as u32, d as u32)` and hands the triple to `Utc.ymd`, which
panics on an invalid or out-of-range date.  The function never constructs an
`Err` of its own. -/
def toJulianDate (input : Nat) : Except Failure (Int × Nat × Nat) :=
  let t := julianYMD input
  let y := satI32 t.1
  let m := satU32 t.2.1
  let d := satU32 t.2.2
  if chronoValidYmd y m d then .ok (y, m, d) else .error .panicked

/-- The tagged value type returned for each cell (`FieldValue`,
src/fields.rs:13-22).  Dates and instants are kept as their civil
components; `Numeric` holds the exact rational value of the decimal literal. -/
inductive FieldValue where
  | Text (s : List Char)
  | Numeric (v : Rat)
  | Integer (i : Int)
  | Boolean (b : Option Bool)
  | Date (y : Int) (m : Nat) (d : Nat)
  | DateTime (y : Int) (m : Nat) (d : Nat) (h : Nat) (minute : Nat) (s : Nat)
  | Unknown (bytes : List Nat)
deriving DecidableEq, Repr

/-- Model of `DBaseMemoContainer` (src/header.rs:154-184): a `.dbt` sidecar stream with
its parsed block size (`0` in the header is replaced by `512` at open time, so
the stored value is always positive in practice). -/
structure DBaseMemoContainer where
  file : List Nat
  blockSize : Nat
  nextAvailable : Nat
deriving DecidableEq, Repr

/-- Model of `FoxProMemoContainer` (src/header.rs:89-125): an `.fpt` sidecar stream
with its parsed fragment size and block size. -/
structure FoxProMemoContainer where
  file : List Nat
  fragmentSize : Nat
  blockSize : Nat
deriving DecidableEq, Repr

/-- The two implementors of the `MemoContainer` trait (src/header.rs:85-87). -/
inductive MemoContainerM where
  | dbase (c : DBaseMemoContainer)
  | foxPro (c : FoxProMemoContainer)
deriving DecidableEq, Repr

/-- Model of `Database` (src/header.rs:66-71), restricted to the parts field decoders
can observe: the optional memo sidecar.  The table byte stream itself is
threaded explicitly through the parsing functions below. -/
structure DatabaseM where
  memo : Option MemoContainerM
deriving DecidableEq, Repr

/-- The block-reading loop of `DBaseMemoContainer::memo`
(src/header.rs:199-207): read `block_size`-byte buffers (`File::read` returns
the available prefix, the rest of the buffer keeps its zero fill), append the
whole buffer each time, and stop after the first buffer that was short or
contains `0x1A`.  `fuel` is an upper bound on the number of iterations; the
wrappers pass `file.length + 1`, which the loop can never exhaust since every
continuing iteration advances `pos` by `block_size ≥ 1` bytes. -/
def dbtLoop (file : List Nat) (blockSize : Nat) : Nat → Nat → List Nat
  | _, 0 => []
  | pos, fuel + 1 =>
    let chunk := (file.drop pos).take blockSize
    let buffer := chunk ++ List.replicate (blockSize - chunk.length) 0
    if chunk.length < blockSize ∨ 26 ∈ buffer then buffer
    else buffer ++ dbtLoop file blockSize (pos + blockSize) fuel

/-- The bytes strictly before the last `0x1A` of `l` (identity when there is
no `0x1A`). -/
def takeBeforeLast26 (l : List Nat) : List Nat :=
  ((l.reverse.dropWhile (fun b => ¬ b = 26)).tail).reverse

/-- Model of `memo_bytes.rsplitn(2, |n| *n == 0x1a)` collected to vectors
(src/header.rs:208): at most two pieces, produced from the end, the separator
dropped — `[suffix after the last 0x1A, everything before it]`, or `[l]` when
no byte equals `0x1A`. -/
def rsplitnTwo26 (l : List Nat) : List (List Nat) :=
  if 26 ∈ l then
    [(l.reverse.takeWhile (fun b => ¬ b = 26)).reverse, takeBeforeLast26 l]
  else [l]

/-- The post-processing of `DBaseMemoContainer::memo` (src/header.rs:208-218):
`rsplitn` at the last `0x1A`, then if two pieces were produced reverse the
list and pop (keeping only the part before the last `0x1A`), concatenate, and
drop one trailing `0x1A` if present. -/
def dbtPostprocess (memoBytes : List Nat) : List Nat :=
  let newBytes := rsplitnTwo26 memoBytes
  let newBytes2 := if 1 < newBytes.length then newBytes.reverse.dropLast
    else newBytes
  let output := newBytes2.flatten
  match output.getLast? with
  | some b => if b = 26 then output.dropLast else output
  | none => output

/-- Model of `.dbt` memo resolution for an already-parsed reference id
(src/header.rs:198-219): seek to `block_size * id`, run the block loop, and
post-process. -/
def dbtMemo (file : List Nat) (blockSize id : Nat) : List Nat :=
  dbtPostprocess (dbtLoop file blockSize (blockSize * id) (file.length + 1))

/-- Model of `DBaseMemoContainer::memo` (src/header.rs:187-220) including the id
parse: the reference bytes are UTF-8 decoded, `trim_start`ed and parsed as a
`u32`. -/
def dbaseContainerMemo (c : DBaseMemoContainer) (data : List Nat) :
    Except Failure (List Nat) :=
  match utf8Decode data with
  | none => .error .invalidData
  | some cs =>
    match parseU32 (rustTrimStart cs) with
    | none => .error .invalidData
    | some id => .ok (dbtMemo c.file c.blockSize id)

/-- Model of `FoxProMemoContainer::memo` (src/header.rs:127-152): LE u32 reference,
seek to `fragment_size * id`, 4-byte record header, BE u32 length, then the
payload, with `read_exact` failing on any shortfall. -/
def foxProContainerMemo (c : FoxProMemoContainer) (data : List Nat) :
    Except Failure (List Nat) :=
  if data.length < 4 then .error .unexpectedEof
  else
    let id := le32 (data.getD 0 0) (data.getD 1 0) (data.getD 2 0)
      (data.getD 3 0)
    let pos := c.fragmentSize * id
    if c.file.length < pos + 4 then .error .unexpectedEof
    else
      let lenBytes := (c.file.drop (pos + 4)).take 4
      if lenBytes.length < 4 then .error .unexpectedEof
      else
        let memoLen := be32 (lenBytes.getD 0 0) (lenBytes.getD 1 0)
          (lenBytes.getD 2 0) (lenBytes.getD 3 0)
        let payload := (c.file.drop (pos + 8)).take memoLen
        if payload.length < memoLen then .error .unexpectedEof
        else .ok payload

/-- Dynamic dispatch over the `MemoContainer` trait object
(src/header.rs:85-87). -/
def MemoContainerM.memo : MemoContainerM → List Nat → Except Failure (List Nat)
  | .dbase c, data => dbaseContainerMemo c data
  | .foxPro c, data => foxProContainerMemo c data

/-- Model of `Database::get_memo` (src/header.rs:424-428): resolve against the sidecar
when present, collapsing any resolution error to `None`. -/
def getMemo (db : DatabaseM) (data : List Nat) : Option (List Nat) :=
  db.memo.bind (fun container => (container.memo data).toOption)

/-- Rust `f64::from_str` restricted to finite decimal literals: optional
sign, then `digits`, `digits . digits?`, or `. digits`, then an optional
exponent; the whole input must be consumed.  The value is the exact rational
denoted by the literal (IEEE rounding elided). -/
def parseF64 (cs : List Char) : Option Rat :=
  let signed : Rat × List Char := match cs with
    | '-' :: r => (-1, r)
    | '+' :: r => (1, r)
    | r => (1, r)
  let sgn := signed.1
  let body := signed.2
  let intPart := body.takeWhile Char.isDigit
  let afterInt := body.dropWhile Char.isDigit
  let withFrac : Option (List Char × List Char × List Char) :=
    match afterInt with
    | '.' :: r =>
      if intPart.isEmpty ∧ (r.takeWhile Char.isDigit).isEmpty then none
      else some (intPart, r.takeWhile Char.isDigit, r.dropWhile Char.isDigit)
    | r => if intPart.isEmpty then none else some (intPart, [], r)
  match withFrac with
  | none => none
  | some (ip, fp, rest) =>
    let mantissa : Int :=
      (ip ++ fp).foldl (fun acc c => acc * 10 + ((c.toNat : Int) - 48)) 0
    let scaled : Rat := sgn * (mantissa : Rat) / ((10 : Rat) ^ fp.length)
    match rest with
    | [] => some scaled
    | 'e' :: r =>
      match r with
      | '-' :: ds => (digitsToNat ds).map
          (fun e => scaled / ((10 : Rat) ^ e))
      | '+' :: ds => (digitsToNat ds).map
          (fun e => scaled * ((10 : Rat) ^ e))
      | ds => (digitsToNat ds).map (fun e => scaled * ((10 : Rat) ^ e))
    | 'E' :: r =>
      match r with
      | '-' :: ds => (digitsToNat ds).map
          (fun e => scaled / ((10 : Rat) ^ e))
      | '+' :: ds => (digitsToNat ds).map
          (fun e => scaled * ((10 : Rat) ^ e))
      | ds => (digitsToNat ds).map (fun e => scaled * ((10 : Rat) ^ e))
    | _ => none

/-- Model of `FieldTypeC::parse` (src/fields.rs:26-33): UTF-8 decode, trim, `Text`. -/
def fieldTypeCParse (db : DatabaseM) (data : List Nat) :
    Except Failure FieldValue :=
  match utf8Decode data with
  | none => .error .invalidData
  | some cs => .ok (.Text (rustTrim cs))

/-- Model of `FieldTypeD::parse` (src/fields.rs:38-57): UTF-8 decode, trim, require
exactly 8 characters, `split_off` into `YYYY`/`MM`/`DD`, parse the components,
then `Utc.ymd` — which panics (rather than erring) on an invalid civil
date. -/
def fieldTypeDParse (db : DatabaseM) (data : List Nat) :
    Except Failure FieldValue :=
  match utf8Decode data with
  | none => .error .invalidData
  | some cs =>
    let fc := rustTrim cs
    if fc.length = 8 then
      let dayStr := fc.drop 6
      let monthStr := (fc.take 6).drop 4
      let yearStr := fc.take 4
      match parseU32 dayStr, parseU32 monthStr, parseI32 yearStr with
      | some day, some month, some year =>
        if chronoValidYmd year month day then .ok (.Date year month day)
        else .error .panicked
      | _, _, _ => .error .invalidData
    else .error .invalidData

/-- Model of `FieldTypeOldNumeric::parse` (src/fields.rs:63-76): UTF-8 decode,
`trim_start`, parse as `f64`. -/
def fieldTypeNParse (db : DatabaseM) (data : List Nat) :
    Except Failure FieldValue :=
  match utf8Decode data with
  | none => .error .invalidData
  | some cs =>
    match parseF64 (rustTrimStart cs) with
    | some v => .ok (.Numeric v)
    | none => .error .invalidData

/-- Model of `FieldTypeL::parse` (src/fields.rs:81-90): dispatch on the first byte;
empty input is `InvalidData`. -/
def fieldTypeLParse (db : DatabaseM) (data : List Nat) :
    Except Failure FieldValue :=
  match data.head? with
  | some r =>
    if r = 89 ∨ r = 121 then .ok (.Boolean (some true))
    else if r = 78 ∨ r = 110 then .ok (.Boolean (some false))
    else .ok (.Boolean none)
  | none => .error .invalidData

/-- Model of `FieldTypeT::parse` (src/fields.rs:112-131): the first two 4-byte chunks
are the little-endian Julian-day and milliseconds-into-day words.  Fewer than
two chunks is `InvalidData`; a short second chunk fails the `read_u32`
(`UnexpectedEof`); `to_julian_date` and `Date::and_hms` panic on out-of-range
values. -/
def fieldTypeTParse (db : DatabaseM) (data : List Nat) :
    Except Failure FieldValue :=
  if data.length ≤ 4 then .error .invalidData
  else if data.length < 8 then .error .unexpectedEof
  else
    let dateWord := le32 (data.getD 0 0) (data.getD 1 0) (data.getD 2 0)
      (data.getD 3 0)
    let timeWord := le32 (data.getD 4 0) (data.getD 5 0) (data.getD 6 0)
      (data.getD 7 0)
    match toJulianDate dateWord with
    | .error e => .error e
    | .ok (y, m, d) =>
      let hours := timeWord / 3600000
      let minutes := (timeWord % 3600000) / 60000
      let seconds := (timeWord % 60000) / 1000
      if hours ≤ 23 then .ok (.DateTime y m d hours minutes seconds)
      else .error .panicked

/-- Model of `FieldTypeI::parse` (src/fields.rs:135-142): little-endian signed 32-bit
integer; fewer than 4 bytes fails the `read_i32` with `UnexpectedEof`. -/
def fieldTypeIParse (db : DatabaseM) (data : List Nat) :
    Except Failure FieldValue :=
  if data.length < 4 then .error .unexpectedEof
  else .ok (.Integer (toI32 (le32 (data.getD 0 0) (data.getD 1 0)
    (data.getD 2 0) (data.getD 3 0))))

/-- Model of `FieldTypeM::parse` (src/fields.rs:146-151): prints the raw bytes and
returns them as `Unknown`, unconditionally — the memo sidecar is never
consulted. -/
def fieldTypeMParse (db : DatabaseM) (data : List Nat) :
    Except Failure FieldValue :=
  .ok (.Unknown data)

/-- The closed set of decoder kinds dispatched in `parse_fields`
(src/header.rs:305-314); `N` covers both the `N` (0x4E) and `F` (0x46) tags,
which share `FieldTypeOldNumeric`. -/
inductive FType where
  | C
  | D
  | N
  | L
  | T
  | I
  | M
deriving DecidableEq, Repr

/-- Decoder dispatch (the `dyn FieldType` vtable). -/
def fieldParse : FType → DatabaseM → List Nat → Except Failure FieldValue
  | .C, db, data => fieldTypeCParse db data
  | .D, db, data => fieldTypeDParse db data
  | .N, db, data => fieldTypeNParse db data
  | .L, db, data => fieldTypeLParse db data
  | .T, db, data => fieldTypeTParse db data
  | .I, db, data => fieldTypeIParse db data
  | .M, db, data => fieldTypeMParse db data

/-- Model of `Version` (src/header.rs:15-24). -/
inductive VersionM where
  | FoxBase
  | dBASE3 (hasMemo : Bool)
  | VisualFoxPro (a : Bool) (b : Bool)
  | dBASE4Table (hasMemo : Bool)
  | dBASE4System (hasMemo : Bool)
  | FoxPro2 (hasMemo : Bool)
  | Unknown
deriving DecidableEq, Repr

/-- Model of `Version::from_byte` (src/header.rs:27-44). -/
def versionFromByte (b : Nat) : VersionM :=
  if b = 2 then .FoxBase
  else if b = 3 then .dBASE3 false
  else if b = 48 then .VisualFoxPro false false
  else if b = 49 then .VisualFoxPro true false
  else if b = 50 then .VisualFoxPro false true
  else if b = 51 then .VisualFoxPro true true
  else if b = 67 then .dBASE4Table false
  else if b = 99 then .dBASE4System false
  else if b = 131 then .dBASE3 true
  else if b = 139 then .dBASE4System true
  else if b = 203 then .dBASE4Table true
  else if b = 251 then .FoxPro2 false
  else if b = 245 then .FoxPro2 true
  else .Unknown

/-- Model of `FieldDescriptor` (src/header.rs:47-54). -/
structure FieldDescriptor where
  name : List Char
  ftype : FType
  dataAddress : Nat
  length : Nat
  decimalCount : Nat
deriving DecidableEq, Repr

/-- Model of `Header` (src/header.rs:56-64); the last-update date is kept as its
`(year, month, day)` components. -/
structure HeaderM where
  version : VersionM
  lastUpdate : Int × Nat × Nat
  recordCount : Nat
  headerSize : Nat
  recordSize : Nat
  fields : List FieldDescriptor
deriving DecidableEq, Repr

/-- The field-type tag dispatch of `parse_fields` (src/header.rs:305-314). -/
def ftypeOfByte (b : Nat) : Option FType :=
  if b = 67 then some .C
  else if b = 68 then some .D
  else if b = 70 ∨ b = 78 then some .N
  else if b = 76 then some .L
  else if b = 84 then some .T
  else if b = 73 then some .I
  else if b = 77 then some .M
  else none

/-- The per-descriptor closure of `parse_fields` (src/header.rs:299-331):
slices `data[0..11]`, `data[11]`, `data[12..16]`, `data[16]`, `data[17]` — a
chunk shorter than 18 bytes panics on the first out-of-range index.  The name
is UTF-8 decoded (failure is `InvalidInput`), trimmed, and stripped of NUL
characters. -/
def parseField (data : List Nat) : Except Failure FieldDescriptor :=
  if data.length < 18 then .error .panicked
  else
    match utf8Decode (data.take 11) with
    | none => .error .invalidInput
    | some nameChars =>
      let name := (rustTrim nameChars).filter (fun c => c.toNat ≠ 0)
      match ftypeOfByte (data.getD 11 0) with
      | none => .error .invalidData
      | some ft =>
        .ok { name := name, ftype := ft,
              dataAddress := le32 (data.getD 12 0) (data.getD 13 0)
                (data.getD 14 0) (data.getD 15 0),
              length := data.getD 16 0, decimalCount := data.getD 17 0 }

/-- Model of `Database::parse_fields` (src/header.rs:295-347): walk the descriptor
area in 32-byte chunks, stopping at exhaustion or at a chunk whose first byte
is `0x0D`.  `fuel` bounds the number of chunks; callers pass more chunks than
the buffer can hold, so it never runs out. -/
def parseFields : Nat → List Nat → Except Failure (List FieldDescriptor)
  | 0, _ => .ok []
  | fuel + 1, buffer =>
    match buffer with
    | [] => .ok []
    | b :: rest =>
      if b = 13 then .ok []
      else
        match parseField ((b :: rest).take 32) with
        | .error e => .error e
        | .ok f =>
          match parseFields fuel ((b :: rest).drop 32) with
          | .error e => .error e
          | .ok fs => .ok (f :: fs)

/-- Model of `Database::parse` (src/header.rs:348-422), on the table byte stream:
read the 12-byte prefix, `parse_date` the update triple (`Utc.ymd` panics on
an invalid one), read the LE count and sizes, skip 20 reserved bytes, compute
the descriptor-area size as `header_size - 32 + 1` — in `u16` arithmetic,
which panics (debug overflow check) when `header_size < 32` — read that many
bytes and parse the descriptors.  Returns the header together with the
not-yet-consumed remainder of the stream.  (The sidecar discovery touches the
filesystem and is outside the byte-stream model; `DatabaseM.memo` carries its
outcome.) -/
def databaseParse (s : List Nat) : Except Failure (HeaderM × List Nat) :=
  if s.length < 12 then .error .unexpectedEof
  else
    let y : Int := (s.getD 1 0 : Int) + 1900
    let mo := s.getD 2 0
    let dy := s.getD 3 0
    if chronoValidYmd y mo dy then
      let headerSize := le16 (s.getD 8 0) (s.getD 9 0)
      if s.length < 32 then .error .unexpectedEof
      else if headerSize < 32 then .error .panicked
      else
        let size := headerSize - 32 + 1
        if s.length < 32 + size then .error .unexpectedEof
        else
          match parseFields (size + 1) ((s.drop 32).take size) with
          | .error e => .error e
          | .ok fields =>
            .ok ({ version := versionFromByte (s.getD 0 0),
                   lastUpdate := (y, mo, dy),
                   recordCount := le32 (s.getD 4 0) (s.getD 5 0) (s.getD 6 0)
                     (s.getD 7 0),
                   headerSize := headerSize,
                   recordSize := le16 (s.getD 10 0) (s.getD 11 0),
                   fields := fields }, s.drop (32 + size))
    else .error .panicked

/-- A decoded record: the `(name, value)` pairs in descriptor order (the Rust
code collects exactly these pairs into a `HashMap`). -/
def RecordM := List (List Char × FieldValue)

instance : DecidableEq RecordM := by
  unfold RecordM
  infer_instance

instance : Repr RecordM := by
  unfold RecordM
  infer_instance

/-- Model of `DatabaseRecordIterator::parse_row` (src/header.rs:240-258): fold over
the descriptors, draining `length` bytes for each and dispatching its
decoder.  `Vec::drain(0..length)` panics when fewer than `length` bytes
remain. -/
def parseRow (db : DatabaseM) (fields : List FieldDescriptor)
    (bytes : List Nat) : Except Failure RecordM :=
  match fields with
  | [] => .ok []
  | f :: rest =>
    if bytes.length < f.length then .error .panicked
    else
      match fieldParse f.ftype db (bytes.take f.length) with
      | .error e => .error e
      | .ok v =>
        match parseRow db rest (bytes.drop f.length) with
        | .error e => .error e
        | .ok vs => .ok ((f.name, v) :: vs)

/-- Model of `record_size` as computed by `into_iter` (src/header.rs:277): the sum of
the descriptor lengths (one less than the header's `record_size` in a
well-formed file). -/
def sumLen (fields : List FieldDescriptor) : Nat :=
  fields.foldl (fun current f => current + f.length) 0

/-- Outcome of driving the record iterator to the end: the records produced,
and whether the run ended normally (`finished` — end of stream or a swallowed
`io::Error`) or aborted with a Rust panic. -/
inductive IterResult where
  | finished (recs : List RecordM)
  | panicked (recs : List RecordM)
deriving DecidableEq, Repr

/-- Prepend a record to an iteration outcome. -/
def IterResult.cons (r : RecordM) : IterResult → IterResult
  | .finished l => .finished (r :: l)
  | .panicked l => .panicked (r :: l)

/-- The records produced, however the run ended. -/
def IterResult.records : IterResult → List RecordM
  | .finished l => l
  | .panicked l => l

/-- Model of `DatabaseRecordIterator::next` (src/header.rs:261-270) driven to
exhaustion: each step `read_bytes(rowSize)` — which reads `rowSize + 1` bytes
(src/header.rs:286-294) — and `parse_row`s the buffer; a failed read or an
`io::Error` from a decoder ends the sequence via `.ok()`, while a panic
unwinds.  `fuel` bounds the number of steps; each successful step consumes
`rowSize + 1 ≥ 1` bytes, so any `fuel > stream.length` is enough. -/
def implIter (db : DatabaseM) (fields : List FieldDescriptor)
    (rowSize : Nat) : Nat → List Nat → IterResult
  | 0, _ => .finished []
  | fuel + 1, stream =>
    if stream.length < rowSize + 1 then .finished []
    else
      match parseRow db fields (stream.take (rowSize + 1)) with
      | .ok r => (implIter db fields rowSize fuel
          (stream.drop (rowSize + 1))).cons r
      | .error .panicked => .panicked []
      | .error _ => .finished []

/-- The reference record procedure of the specification, applied from
`header_size`: read exactly `record_size` bytes, discard the one-byte
deletion marker, decode the remaining bytes per descriptor; a short read ends
the sequence, errors behave as in the implementation. -/
def refIter (db : DatabaseM) (fields : List FieldDescriptor)
    (recordSize : Nat) : Nat → List Nat → IterResult
  | 0, _ => .finished []
  | fuel + 1, stream =>
    if stream.length < recordSize then .finished []
    else
      match parseRow db fields ((stream.take recordSize).drop 1) with
      | .ok r => (refIter db fields recordSize fuel
          (stream.drop recordSize)).cons r
      | .error .panicked => .panicked []
      | .error _ => .finished []

/-- Executable success test for `Except`. -/
def exceptIsOk {ε α : Type} : Except ε α → Bool
  | .ok _ => true
  | .error _ => false

/-- How an implementation run over `s.drop 1` relates to a reference run over
`s`: identical, except that when the stream ends exactly at a record boundary
the implementation — whose read wants one byte more — loses the final record
(or final panic) of the reference. -/
def refineExpect (R slen : Nat) : IterResult → IterResult
  | .finished recs =>
    .finished (if slen = recs.length * R ∧ 0 < slen then recs.dropLast
      else recs)
  | .panicked recs =>
    if slen = (recs.length + 1) * R then .finished recs else .panicked recs

/-! ## Concrete fixtures used by witnesses and counterexamples -/

/-- A database with no memo sidecar. -/
def db0 : DatabaseM := ⟨none⟩

/-- A database whose `.dbt` sidecar holds the memo `"Hi"` in block 1
(block size 4). -/
def dbWithDbt : DatabaseM :=
  ⟨some (.dbase ⟨[0, 0, 0, 0, 72, 105, 26, 26], 4, 0⟩)⟩

/-- A one-byte character column named `A`. -/
def fdA : FieldDescriptor :=
  { name := ['A'], ftype := .C, dataAddress := 0, length := 1,
    decimalCount := 0 }

/-- An eight-byte date column named `D`. -/
def fdD8 : FieldDescriptor :=
  { name := ['D'], ftype := .D, dataAddress := 0, length := 8,
    decimalCount := 0 }

/-- The 32-byte descriptor of column `A`. -/
def descA : List Nat :=
  [65, 0, 0, 0, 0, 0, 0, 0, 0, 0, 0, 67, 0, 0, 0, 0, 1, 0,
   0, 0, 0, 0, 0, 0, 0, 0, 0, 0, 0, 0, 0, 0]

/-- A complete well-formed table stream: version 3, updated 1999-01-01, one
record advertised, `header_size = 65`, `record_size = 2`, one `C` column of
length 1, the `0x0D` terminator, and exactly one record `" A"` — the stream
ends at the last row with no trailing byte. -/
def c3stream : List Nat :=
  [3, 99, 1, 1, 1, 0, 0, 0, 65, 0, 2, 0] ++ List.replicate 20 0 ++
    descA ++ [13] ++ [32, 65]

/-- The header `c3stream` parses to. -/
def hdrC3 : HeaderM :=
  { version := .dBASE3 false, lastUpdate := (1999, 1, 1), recordCount := 1,
    headerSize := 65, recordSize := 2, fields := [fdA] }

/-- A `.dbt` sidecar stream whose block 2 (block size 4) is
`[65, 0x1A, 66, 0x1A]` — a memo with an embedded `0x1A`. -/
def dbtFileX : List Nat := [0, 0, 0, 0, 0, 0, 0, 0, 65, 26, 66, 26]

/-- The resolution procedure exactly as the claim words it: after the block
loop, truncate the concatenation at (and drop) the FIRST `0x1A`, then drop a
trailing `0x1A` if one remains. -/
def dbtResolveFirstClaim (file : List Nat) (blockSize id : Nat) : List Nat :=
  let memoBytes := dbtLoop file blockSize (blockSize * id) (file.length + 1)
  let truncated := memoBytes.takeWhile (fun b => ¬ b = 26)
  if truncated.getLast? = some 26 then truncated.dropLast else truncated

/-- The resolution procedure with the claim amended: truncate at (and drop)
the LAST `0x1A` (short blocks having been zero-padded to `block_size` by the
loop), then drop a trailing `0x1A` if one remains. -/
def dbtResolveLastSpec (file : List Nat) (blockSize id : Nat) : List Nat :=
  let memoBytes := dbtLoop file blockSize (blockSize * id) (file.length + 1)
  let truncated :=
    if 26 ∈ memoBytes then takeBeforeLast26 memoBytes else memoBytes
  if truncated.getLast? = some 26 then truncated.dropLast else truncated

theorem foldlLen_shift :
    ∀ (l : List FieldDescriptor) (n : Nat),
    l.foldl (fun current f => current + f.length) n =
      n + l.foldl (fun current f => current + f.length) 0 := by
  intro l
  induction l with
  | nil => intro n; simp
  | cons f t ih =>
    intro n
    rw [List.foldl_cons, List.foldl_cons, ih (n + f.length), ih (0 + f.length)]
    omega

theorem sumLen_cons (f : FieldDescriptor) (t : List FieldDescriptor) :
    sumLen (f :: t) = f.length + sumLen t := by
  unfold sumLen
  rw [List.foldl_cons, foldlLen_shift]
  omega

/-- Model of `parse_row` consumes exactly `sumLen fields` bytes: bytes beyond them do
not influence the result. -/
theorem parseRow_append (db : DatabaseM) :
    ∀ (fields : List FieldDescriptor) (a t : List Nat),
    sumLen fields ≤ a.length →
    parseRow db fields (a ++ t) = parseRow db fields a := by
  intro fields
  induction fields with
  | nil => intro a t h; rfl
  | cons f rest ih =>
    intro a t h
    rw [sumLen_cons] at h
    have hf : f.length ≤ a.length := by omega
    simp only [parseRow, List.length_append]
    rw [if_neg (by omega), if_neg (by omega),
      List.take_append_of_le_length hf, List.drop_append_of_le_length hf,
      ih (a.drop f.length) t (by simp [List.length_drop]; omega)]

theorem parseRow_take (db : DatabaseM) (fields : List FieldDescriptor)
    (b : List Nat) (h : sumLen fields ≤ b.length) :
    parseRow db fields b = parseRow db fields (b.take (sumLen fields)) := by
  conv_lhs => rw [← List.take_append_drop (sumLen fields) b]
  rw [parseRow_append db fields _ _ (by simp [List.length_take]; omega)]

theorem dropWhile_head?_not (p : α → Bool) :
    ∀ (l : List α) (c : α), (l.dropWhile p).head? = some c → p c = false := by
  intro l
  induction l with
  | nil => intro c h; simp [List.dropWhile] at h
  | cons a t ih =>
    intro c h
    by_cases hp : p a
    · rw [List.dropWhile_cons_of_pos hp] at h
      exact ih c h
    · rw [List.dropWhile_cons_of_neg hp] at h
      simp at h
      subst h
      simpa using hp

theorem dropWhile_getLast? (p : α → Bool) :
    ∀ (l : List α), l.dropWhile p ≠ [] →
    (l.dropWhile p).getLast? = l.getLast? := by
  intro l
  induction l with
  | nil => intro h; simp [List.dropWhile] at h
  | cons a t ih =>
    intro h
    by_cases hp : p a
    · rw [List.dropWhile_cons_of_pos hp] at h ⊢
      rw [ih h]
      have ht : t ≠ [] := by
        intro he
        subst he
        simp [List.dropWhile] at h
      cases t with
      | nil => exact absurd rfl ht
      | cons b t' => rw [List.getLast?_cons_cons]
    · rw [List.dropWhile_cons_of_neg hp]

/-- The head of a trimmed string is not whitespace. -/
theorem rustTrim_head (l : List Char) (c : Char)
    (h : (rustTrim l).head? = some c) : isRustWhitespace c = false := by
  unfold rustTrim at h
  rw [List.head?_reverse] at h
  have hne : (l.dropWhile isRustWhitespace).reverse.dropWhile isRustWhitespace ≠ [] := by
    intro he
    rw [he] at h
    simp at h
  rw [dropWhile_getLast? _ _ hne, List.getLast?_reverse] at h
  exact dropWhile_head?_not _ _ _ h

/-- The last character of a trimmed string is not whitespace. -/
theorem rustTrim_last (l : List Char) (c : Char)
    (h : (rustTrim l).getLast? = some c) : isRustWhitespace c = false := by
  unfold rustTrim at h
  rw [List.getLast?_reverse] at h
  exact dropWhile_head?_not _ _ _ h

theorem refIter_nil (db : DatabaseM) (fields : List FieldDescriptor)
    (R : Nat) (hR : 0 < R) :
    ∀ fuel, refIter db fields R fuel [] = .finished [] := by
  intro fuel
  cases fuel with
  | zero => rfl
  | succ fuel => simp [refIter, hR]

theorem iterRefineAux (db : DatabaseM) (fields : List FieldDescriptor) :
    ∀ (fuel : Nat) (s : List Nat), s.length < fuel →
    implIter db fields (sumLen fields) fuel (s.drop 1) =
      refineExpect (sumLen fields + 1) s.length
        (refIter db fields (sumLen fields + 1) fuel s) := by
  intro fuel
  induction fuel with
  | zero => intro s hs; exact absurd hs (Nat.not_lt_zero _)
  | succ fuel ih =>
    intro s hs
    set r := sumLen fields with hr
    by_cases h1 : s.length < r + 1
    · have himpl : (s.drop 1).length < r + 1 := by
        rw [List.length_drop]; omega
      simp only [implIter, refIter]
      rw [if_pos himpl, if_pos h1]
      simp [refineExpect, ite_self]
    · have hchunk : (s.take (r + 1)).drop 1 = (s.drop 1).take r := by
        rw [List.drop_take, Nat.add_sub_cancel]
      by_cases h2 : s.length = r + 1
      · have himpl : (s.drop 1).length < r + 1 := by
          rw [List.length_drop]; omega
        simp only [implIter, refIter]
        rw [if_pos himpl, if_neg h1, hchunk]
        rcases hx : parseRow db fields ((s.drop 1).take r) with e | rec
        · cases e with
          | panicked =>
            simp only [refineExpect, List.length_nil]
            rw [if_pos (by omega)]
          | invalidData =>
            simp only [refineExpect, List.length_nil, Nat.zero_mul]
            rw [if_neg (by omega)]
          | invalidInput =>
            simp only [refineExpect, List.length_nil, Nat.zero_mul]
            rw [if_neg (by omega)]
          | unexpectedEof =>
            simp only [refineExpect, List.length_nil, Nat.zero_mul]
            rw [if_neg (by omega)]
          | notFound =>
            simp only [refineExpect, List.length_nil, Nat.zero_mul]
            rw [if_neg (by omega)]
        · rw [List.drop_eq_nil_of_le (by omega),
            refIter_nil db fields (r + 1) (by omega)]
          simp only [IterResult.cons, refineExpect, List.length_cons,
            List.length_nil]
          rw [if_pos ⟨by omega, by omega⟩]
          rfl
      · have himplge : ¬ (s.drop 1).length < r + 1 := by
          rw [List.length_drop]; omega
        simp only [implIter, refIter]
        rw [if_neg himplge, if_neg h1, hchunk]
        have hparse : parseRow db fields ((s.drop 1).take (r + 1)) =
            parseRow db fields ((s.drop 1).take r) := by
          rw [parseRow_take db fields ((s.drop 1).take (r + 1))
            (by rw [List.length_take, List.length_drop]; omega)]
          rw [List.take_take, ← hr, Nat.min_eq_left (Nat.le_succ r)]
        rw [hparse]
        rcases hx : parseRow db fields ((s.drop 1).take r) with e | rec
        · cases e with
          | panicked =>
            simp only [refineExpect, List.length_nil]
            rw [if_neg (by omega)]
          | invalidData =>
            simp only [refineExpect, List.length_nil, Nat.zero_mul]
            rw [if_neg (by omega)]
          | invalidInput =>
            simp only [refineExpect, List.length_nil, Nat.zero_mul]
            rw [if_neg (by omega)]
          | unexpectedEof =>
            simp only [refineExpect, List.length_nil, Nat.zero_mul]
            rw [if_neg (by omega)]
          | notFound =>
            simp only [refineExpect, List.length_nil, Nat.zero_mul]
            rw [if_neg (by omega)]
        · have hdd : (s.drop 1).drop (r + 1) = (s.drop (r + 1)).drop 1 := by
            rw [List.drop_drop, List.drop_drop]
            congr 1
            omega
          rw [hdd, ih (s.drop (r + 1)) (by rw [List.length_drop]; omega)]
          rcases href : refIter db fields (r + 1) fuel (s.drop (r + 1))
            with recs' | recs'
          · simp only [refineExpect, IterResult.cons, List.length_drop,
              List.length_cons]
            by_cases hcond : s.length - (r + 1) = recs'.length * (r + 1)
            · have hne : recs' ≠ [] := by
                intro he
                subst he
                simp only [List.length_nil, Nat.zero_mul] at hcond
                omega
              have hcondS : s.length = (recs'.length + 1) * (r + 1) := by
                rw [Nat.succ_mul]
                omega
              rw [if_pos ⟨hcond, by omega⟩, if_pos ⟨hcondS, by omega⟩,
                List.dropLast_cons_of_ne_nil hne]
            · have hcondS : ¬ s.length = (recs'.length + 1) * (r + 1) := by
                rw [Nat.succ_mul]
                omega
              rw [if_neg (by intro hc; exact hcond hc.1),
                if_neg (by intro hc; exact hcondS hc.1)]
          · simp only [refineExpect, IterResult.cons, List.length_drop,
              List.length_cons]
            by_cases hcond : s.length - (r + 1) = (recs'.length + 1) * (r + 1)
            · have hcondS : s.length = (recs'.length + 1 + 1) * (r + 1) := by
                rw [Nat.succ_mul (recs'.length + 1)]
                omega
              rw [if_pos hcond, if_pos hcondS]
            · have hcondS : ¬ s.length = (recs'.length + 1 + 1) * (r + 1) := by
                rw [Nat.succ_mul (recs'.length + 1)]
                omega
              rw [if_neg hcond, if_neg hcondS]

theorem flatten_length_uniform (L : Nat) :
    ∀ rows : List (List Nat), (∀ row ∈ rows, row.length = L) →
    rows.flatten.length = rows.length * L := by
  intro rows
  induction rows with
  | nil => intro _; simp
  | cons row rest ih =>
    intro h
    simp only [List.flatten_cons, List.length_append, List.length_cons,
      ih (fun r hr => h r (by simp [hr])), h row (by simp), Nat.succ_mul]
    omega

/-- The reference procedure consumes a run of well-formed, cleanly-decoding
rows in full, producing one record per row, and stops at a short tail. -/
theorem refIter_rows (db : DatabaseM) (fields : List FieldDescriptor) :
    ∀ (rows : List (List Nat)) (t : List Nat) (fuel : Nat),
    (∀ row ∈ rows, row.length = sumLen fields + 1) →
    (∀ row ∈ rows, exceptIsOk (parseRow db fields (row.drop 1)) = true) →
    t.length < sumLen fields + 1 →
    rows.flatten.length + t.length < fuel →
    ∃ recs, refIter db fields (sumLen fields + 1) fuel (rows.flatten ++ t) =
      .finished recs ∧ recs.length = rows.length := by
  intro rows
  induction rows with
  | nil =>
    intro t fuel hlen hok ht hfuel
    cases fuel with
    | zero => simp at hfuel
    | succ fuel =>
      refine ⟨[], ?_, rfl⟩
      simp only [List.flatten_nil, List.nil_append, refIter]
      rw [if_pos (by omega)]
  | cons row rows ih =>
    intro t fuel hlen hok ht hfuel
    have hrowlen : row.length = sumLen fields + 1 := hlen row (by simp)
    cases fuel with
    | zero =>
      exfalso
      omega
    | succ fuel =>
      have hstream : (row :: rows).flatten ++ t = row ++ (rows.flatten ++ t) := by
        simp [List.flatten_cons, List.append_assoc]
      rw [hstream]
      simp only [refIter]
      rw [if_neg (by simp only [List.length_append]; omega)]
      have htake : (row ++ (rows.flatten ++ t)).take (sumLen fields + 1)
          = row := by
        rw [← hrowlen, List.take_append_of_le_length (le_refl _),
          List.take_length]
      have hdrop : (row ++ (rows.flatten ++ t)).drop (sumLen fields + 1)
          = rows.flatten ++ t := by
        rw [← hrowlen, List.drop_append_of_le_length (le_refl _),
          List.drop_length, List.nil_append]
      rw [htake]
      obtain ⟨rec, hrec⟩ : ∃ rec, parseRow db fields (row.drop 1) = .ok rec := by
        have hk := hok row (by simp)
        cases hparse : parseRow db fields (row.drop 1) with
        | ok rec => exact ⟨rec, rfl⟩
        | error e => rw [hparse] at hk; simp [exceptIsOk] at hk
      rw [hrec]
      have hihfuel : rows.flatten.length + t.length < fuel := by
        simp only [List.flatten_cons, List.length_append] at hfuel
        omega
      obtain ⟨recs, hrecs, hlenrecs⟩ := ih t fuel
        (fun r hr => hlen r (by simp [hr]))
        (fun r hr => hok r (by simp [hr])) ht hihfuel
      rw [hdrop, hrecs]
      exact ⟨rec :: recs, rfl, by simp [hlenrecs]⟩

/-- Inversion of a successful `Database::parse`: the header size is at least
32 and the parser has consumed exactly `header_size + 1` bytes — one byte
more than the header proper. -/
theorem databaseParse_ok_inv (s : List Nat) (h : HeaderM) (rest : List Nat)
    (hp : databaseParse s = .ok (h, rest)) :
    32 ≤ h.headerSize ∧ h.headerSize + 1 ≤ s.length ∧
      rest = s.drop (h.headerSize + 1) := by
  simp only [databaseParse] at hp
  by_cases h1 : s.length < 12
  · rw [if_pos h1] at hp; cases hp
  rw [if_neg h1] at hp
  by_cases h2 : chronoValidYmd ((s.getD 1 0 : Int) + 1900) (s.getD 2 0)
    (s.getD 3 0) = true
  swap
  · rw [if_neg h2] at hp; cases hp
  rw [if_pos h2] at hp
  by_cases h3 : s.length < 32
  · rw [if_pos h3] at hp; cases hp
  rw [if_neg h3] at hp
  by_cases h4 : le16 (s.getD 8 0) (s.getD 9 0) < 32
  · rw [if_pos h4] at hp; cases hp
  rw [if_neg h4] at hp
  by_cases h5 : s.length < 32 + (le16 (s.getD 8 0) (s.getD 9 0) - 32 + 1)
  · rw [if_pos h5] at hp; cases hp
  rw [if_neg h5] at hp
  cases hpf : parseFields (le16 (s.getD 8 0) (s.getD 9 0) - 32 + 1 + 1)
      ((s.drop 32).take (le16 (s.getD 8 0) (s.getD 9 0) - 32 + 1)) with
  | error e => rw [hpf] at hp; cases hp
  | ok fields =>
    rw [hpf] at hp
    simp only [Except.ok.injEq, Prod.mk.injEq] at hp
    obtain ⟨hh, hrest⟩ := hp
    have hhs : h.headerSize = le16 (s.getD 8 0) (s.getD 9 0) := by
      rw [← hh]
    have harith : 32 + (le16 (s.getD 8 0) (s.getD 9 0) - 32 + 1) =
        le16 (s.getD 8 0) (s.getD 9 0) + 1 := by omega
    refine ⟨by omega, by omega, ?_⟩
    rw [← hrest, hhs, harith]

/-! ## C1 — memo fields never resolve against the sidecar -/

/-- C1 (code bug): for a type-`M` field in a database whose `.dbt` sidecar is
present and whose memo would resolve (to `"Hi"` = `[72, 105]`), the decoder
still returns `Unknown` with the raw reference bytes `" 1"` — `FieldTypeM::parse`
never calls `Database::get_memo`, contradicting the crate's own tests, which
expect memo-backed fields to decode to `Text`. -/
theorem fieldTypeM_ignores_sidecar :
    fieldTypeMParse dbWithDbt [32, 49] = .ok (.Unknown [32, 49]) ∧
    getMemo dbWithDbt [32, 49] = some [72, 105] := by decide

/-! ## C4 — `.dbt` memo truncation happens at the last 0x1A, not the first -/

theorem matchLast26_eq_if (output : List Nat) :
    (match output.getLast? with
      | some b => if b = 26 then output.dropLast else output
      | none => output) =
    (if output.getLast? = some 26 then output.dropLast else output) := by
  rcases hgl : output.getLast? with _ | b
  · simp
  · by_cases hb : b = 26 <;> simp [hb]

/-- C4 (counterexample): resolving id 2 against `dbtFileX` with block size 4,
the implementation returns `[65, 0x1A, 66]` — everything before the last
`0x1A` — while the claim's truncate-at-first-`0x1A` procedure would return
`[65]`. -/
theorem dbtMemo_counterexample :
    dbtMemo dbtFileX 4 2 = [65, 26, 66] ∧
    dbtResolveFirstClaim dbtFileX 4 2 = [65] ∧
    dbtMemo dbtFileX 4 2 ≠ dbtResolveFirstClaim dbtFileX 4 2 := by decide

/-- C4 (amended): `.dbt` memo resolution seeks to `block_size * id`, reads
zero-padded blocks until one is short or contains `0x1A`, and truncates the
concatenation at (and drops) the LAST `0x1A`, dropping one remaining trailing
`0x1A`. -/
theorem dbtMemo_truncates_at_last : ∀ (file : List Nat) (blockSize id : Nat),
    dbtMemo file blockSize id = dbtResolveLastSpec file blockSize id := by
  intro file blockSize id
  simp only [dbtMemo, dbtResolveLastSpec, dbtPostprocess, rsplitnTwo26]
  set l := dbtLoop file blockSize (blockSize * id) (file.length + 1) with hl
  by_cases h : 26 ∈ l
  · rw [if_pos h, if_pos h]
    rw [if_pos (by simp)]
    simp only [List.reverse_cons, List.reverse_nil, List.nil_append,
      List.dropLast_concat, List.flatten_cons, List.flatten_nil,
      List.append_nil]
    exact matchLast26_eq_if _
  · rw [if_neg h, if_neg h]
    rw [if_neg (by simp)]
    simp only [List.flatten_cons, List.flatten_nil, List.append_nil]
    exact matchLast26_eq_if _

/-! ## C6 — Julian conversion panics instead of returning InvalidData -/

/-- C6 (counterexample): at input `u32::MAX` the reduction produces a year
near twelve million, far outside chrono's range, and `to_julian_date` panics
inside `Utc.ymd` instead of failing with `InvalidData`. -/
theorem toJulianDate_counterexample :
    toJulianDate 4294967295 = .error .panicked := by decide

/-- C6 (amended): for every unsigned 32-bit input, `to_julian_date` either
succeeds with the triple produced by the stated reduction (saturating-cast to
`(i32, u32, u32)`), or panics; it panics exactly when that triple fails
`Utc.ymd`'s validity check, and it never returns an error value such as
`InvalidData`. -/
theorem toJulianDate_never_invalidData (input : Nat) :
    (toJulianDate input = .ok (satI32 (julianYMD input).1,
        satU32 (julianYMD input).2.1, satU32 (julianYMD input).2.2) ∨
      toJulianDate input = .error .panicked) ∧
    (toJulianDate input = .error .panicked ↔
      chronoValidYmd (satI32 (julianYMD input).1) (satU32 (julianYMD input).2.1)
        (satU32 (julianYMD input).2.2) = false) := by
  unfold toJulianDate
  by_cases hv : chronoValidYmd (satI32 (julianYMD input).1)
      (satU32 (julianYMD input).2.1) (satU32 (julianYMD input).2.2) = true
  · rw [if_pos hv]
    exact ⟨.inl rfl, by simp [hv]⟩
  · rw [if_neg hv]
    simp at hv
    exact ⟨.inr rfl, by simp [hv]⟩

/-! ## C7 — decoded Text is whitespace-trimmed but keeps NUL bytes -/

/-- C7 (counterexample): the type-`C` decoder maps the bytes
`[0x61, 0x00, 0x62]` to `Text "a\x00b"`, which contains a NUL character —
`str::trim` removes whitespace only, never NULs. -/
theorem fieldTypeC_nul_counterexample :
    fieldTypeCParse db0 [97, 0, 98] =
      .ok (.Text ['a', Char.ofNat 0, 'b']) ∧
    Char.ofNat 0 ∈ ['a', Char.ofNat 0, 'b'] := by decide

/-- C7 (amended): every `Text` value produced by the type-`C` decoder has no
leading and no trailing whitespace character (NUL bytes, which Rust does not
count as whitespace, may remain anywhere in the string). -/
theorem fieldTypeC_trimmed (db : DatabaseM) (data : List Nat) (cs : List Char)
    (hparse : fieldTypeCParse db data = .ok (.Text cs)) :
    (cs.head?.all fun c => !isRustWhitespace c) = true ∧
    (cs.getLast?.all fun c => !isRustWhitespace c) = true := by
  unfold fieldTypeCParse at hparse
  cases hd : utf8Decode data with
  | none => rw [hd] at hparse; cases hparse
  | some cs' =>
    rw [hd] at hparse
    simp only [Except.ok.injEq, FieldValue.Text.injEq] at hparse
    subst hparse
    refine ⟨?_, ?_⟩
    · cases hh : (rustTrim cs').head? with
      | none => rfl
      | some c => simp [Option.all, rustTrim_head cs' c hh]
    · cases hh : (rustTrim cs').getLast? with
      | none => rfl
      | some c => simp [Option.all, rustTrim_last cs' c hh]

/-- C7 (witness for the amended theorem at a concrete input). -/
theorem fieldTypeC_trimmed_witness :
    fieldTypeCParse db0 [32, 97, 32] = .ok (.Text ['a']) ∧
    ((['a'] : List Char).head?.all fun c => !isRustWhitespace c) = true ∧
    ((['a'] : List Char).getLast?.all fun c => !isRustWhitespace c) = true :=
  ⟨by decide, fieldTypeC_trimmed db0 [32, 97, 32] ['a'] (by decide)⟩

/-! ## C8 — the documented DateTime test vector -/

/-- C8: decoding `[0xB8,0x83,0x25,0x00,0x80,0xEE,0x36,0x00]` as a type-`T`
field: the first little-endian word is `2458552`, the Julian day of
2019-03-09; the second is `3600000` milliseconds, i.e. 01:00:00; the result
is `DateTime(2019-03-09T01:00:00Z)`. -/
theorem fieldTypeT_example :
    le32 184 131 37 0 = 2458552 ∧
    toJulianDate 2458552 = .ok (2019, 3, 9) ∧
    le32 128 238 54 0 = 3600000 ∧
    fieldTypeTParse db0 [184, 131, 37, 0, 128, 238, 54, 0] =
      .ok (.DateTime 2019 3 9 1 0 0) := by decide

/-! ## C9 — the three-valued boolean decoder -/

/-- C9: the type-`L` decoder inspects only the first byte: `Y`/`y` give
`Boolean(true)`, `N`/`n` give `Boolean(false)`, anything else gives
`Boolean(unknown)`, and the empty slice fails with `InvalidData`. -/
theorem fieldTypeL_cases (db : DatabaseM) (data : List Nat) :
    fieldTypeLParse db data =
      match data with
      | [] => .error .invalidData
      | b :: _ =>
        .ok (.Boolean (if b = 89 ∨ b = 121 then some true
          else if b = 78 ∨ b = 110 then some false else none)) := by
  cases data with
  | nil => rfl
  | cons b t =>
    simp only [fieldTypeLParse, List.head?]
    by_cases h1 : b = 89 ∨ b = 121
    · rw [if_pos h1, if_pos h1]
    · rw [if_neg h1, if_neg h1]
      by_cases h2 : b = 78 ∨ b = 110
      · rw [if_pos h2, if_pos h2]
      · rw [if_neg h2, if_neg h2]

/-! ## C10 — header sizes below 32 underflow the u16 subtraction -/

/-- C10: on any stream of at least 32 bytes whose update date passes
`Utc.ymd` and whose advertised `header_size` is below 32, `Database::parse`
hits the `header_size - 32` underflow (a `u16` overflow panic under debug
assertions, a wrapped length otherwise) instead of returning an
`InvalidData` error. -/
theorem databaseParse_underflow (s : List Nat) (h32 : 32 ≤ s.length)
    (hdate : chronoValidYmd ((s.getD 1 0 : Int) + 1900) (s.getD 2 0)
      (s.getD 3 0) = true)
    (hhs : le16 (s.getD 8 0) (s.getD 9 0) < 32) :
    databaseParse s = .error .panicked := by
  simp only [databaseParse]
  rw [if_neg (by omega), if_pos hdate, if_neg (by omega), if_pos hhs]

/-- C10 (witness): a 32-byte header advertising `header_size = 0`. -/
theorem databaseParse_underflow_witness :
    databaseParse ([3, 99, 1, 1] ++ List.replicate 28 0) = .error .panicked :=
  databaseParse_underflow ([3, 99, 1, 1] ++ List.replicate 28 0)
    (by decide) (by decide) (by decide)

/-! ## C2 — the record iterator against the reference procedure -/

/-- C2 (counterexample): on the single-record stream `[0x20, 0x41]` of a
one-column table (row size 1, record size 2) the reference procedure yields
one record, but the implementation — which starts one byte past the header
and still needs `row_size + 1` bytes — cannot complete its read at the final
stream boundary and yields none: the two sequences differ. -/
theorem recordIterator_counterexample :
    refIter db0 [fdA] (sumLen [fdA] + 1) 5 [32, 65] =
      .finished [[(['A'], .Text ['A'])]] ∧
    implIter db0 [fdA] (sumLen [fdA]) 5 (List.drop 1 [32, 65]) =
      .finished [] ∧
    implIter db0 [fdA] (sumLen [fdA]) 5 (List.drop 1 [32, 65]) ≠
      refIter db0 [fdA] (sumLen [fdA] + 1) 5 [32, 65] := by decide

/-- C2 (amended): running the implementation's iterator (which reads
`row_size + 1` bytes per step, starting one byte past the header) relates to
the reference procedure (which reads `record_size = row_size + 1` bytes per
step from the header boundary, discards the deletion marker and decodes the
rest) by `refineExpect`: the sequences are equal step for step, except that
when the stream ends exactly at a record boundary the implementation loses
the final record (its last read needs one byte past the end). -/
theorem recordIterator_refines (db : DatabaseM)
    (fields : List FieldDescriptor) (s : List Nat) (fuel : Nat)
    (hfuel : s.length < fuel) :
    implIter db fields (sumLen fields) fuel (s.drop 1) =
      refineExpect (sumLen fields + 1) s.length
        (refIter db fields (sumLen fields + 1) fuel s) :=
  iterRefineAux db fields fuel s hfuel

/-- C2 (witness). -/
theorem recordIterator_refines_witness :
    implIter db0 [fdA] (sumLen [fdA]) 5 (List.drop 1 [32, 65]) =
      refineExpect (sumLen [fdA] + 1) ([32, 65] : List Nat).length
        (refIter db0 [fdA] (sumLen [fdA] + 1) 5 [32, 65]) :=
  recordIterator_refines db0 [fdA] [32, 65] 5 (by decide)

/-! ## C5 — errors during iteration: swallowed, except panics -/

/-- C5 (counterexample): a row whose type-`D` field holds the digits
`"20190231"` — February 31st — makes `Utc.ymd` panic inside the decoder, and
the panic unwinds out of `next()`: the malformed row aborts iteration
instead of ending the sequence silently. -/
theorem iteration_panic_counterexample :
    implIter db0 [fdD8] 8 2 [50, 48, 49, 57, 48, 50, 51, 49, 32] =
      .panicked [] := by decide

/-- C5 (amended): every run of the record iterator either terminates as a
silent, finished sequence — short reads and decoder `io::Error`s are
swallowed by `.ok()` and are indistinguishable from end-of-stream — or
aborts by panic, and only when the row decoder itself panics on some
suffix's row bytes (invalid date or time components). -/
theorem iteration_swallows_io_errors (db : DatabaseM)
    (fields : List FieldDescriptor) (r : Nat) :
    ∀ (fuel : Nat) (stream : List Nat),
    (∃ recs, implIter db fields r fuel stream = .finished recs) ∨
    (∃ recs k, implIter db fields r fuel stream = .panicked recs ∧
      parseRow db fields ((stream.drop k).take (r + 1)) = .error .panicked ∧
      r + 1 ≤ (stream.drop k).length) := by
  intro fuel
  induction fuel with
  | zero => intro stream; exact .inl ⟨[], rfl⟩
  | succ fuel ih =>
    intro stream
    by_cases hshort : stream.length < r + 1
    · refine .inl ⟨[], ?_⟩
      simp only [implIter]
      rw [if_pos hshort]
    · rcases hx : parseRow db fields (stream.take (r + 1)) with e | rec
      · cases e with
        | panicked =>
          refine .inr ⟨[], 0, ?_, ?_, ?_⟩
          · simp only [implIter]
            rw [if_neg hshort, hx]
          · simpa using hx
          · simp only [List.drop_zero]
            omega
        | invalidData =>
          refine .inl ⟨[], ?_⟩
          simp only [implIter]
          rw [if_neg hshort, hx]
        | invalidInput =>
          refine .inl ⟨[], ?_⟩
          simp only [implIter]
          rw [if_neg hshort, hx]
        | unexpectedEof =>
          refine .inl ⟨[], ?_⟩
          simp only [implIter]
          rw [if_neg hshort, hx]
        | notFound =>
          refine .inl ⟨[], ?_⟩
          simp only [implIter]
          rw [if_neg hshort, hx]
      · rcases ih (stream.drop (r + 1)) with ⟨recs, hfin⟩ |
          ⟨recs, k, hpan, hrow, hlen⟩
        · refine .inl ⟨rec :: recs, ?_⟩
          simp only [implIter]
          rw [if_neg hshort, hx, hfin]
          rfl
        · have hdd : (stream.drop (r + 1)).drop k = stream.drop (r + 1 + k) := by
            rw [List.drop_drop]
          refine .inr ⟨rec :: recs, r + 1 + k, ?_, ?_, ?_⟩
          · simp only [implIter]
            rw [if_neg hshort, hx, hpan]
            rfl
          · rw [← hdd]
            exact hrow
          · rw [← hdd]
            exact hlen

/-! ## C3 — parsed record count versus the advertised count -/

/-- C3 (counterexample): `c3stream` is not truncated — it holds exactly
`header_size` header bytes plus `record_count * record_size` row bytes — and
its single row decodes cleanly, yet the iterator yields 0 records, not the
advertised 1. -/
theorem recordCount_counterexample :
    databaseParse c3stream = .ok (hdrC3, [65]) ∧
    hdrC3.recordCount = 1 ∧
    c3stream.length = hdrC3.headerSize + hdrC3.recordCount * hdrC3.recordSize ∧
    (implIter db0 hdrC3.fields (sumLen hdrC3.fields) 10 [65]).records = [] := by
  decide

/-- C3 (amended): for a table stream that parses successfully and whose body
consists of `record_count` well-formed, cleanly-decoding rows followed by a
tail shorter than a data row, the iterator yields `record_count - 1` records
when the tail is empty (the stream ends exactly at the last row) and exactly
`record_count` records when at least one trailing byte — such as the
conventional `0x1A` end-of-file marker — follows the rows. -/
theorem recordCount_offByOne (db : DatabaseM) (s : List Nat) (h : HeaderM)
    (rest : List Nat) (rows : List (List Nat)) (t : List Nat) (fuel : Nat)
    (hp : databaseParse s = .ok (h, rest))
    (hdecomp : s.drop h.headerSize = rows.flatten ++ t)
    (hrs : h.recordSize = sumLen h.fields + 1)
    (hrowlen : ∀ row ∈ rows, row.length = h.recordSize)
    (hcount : rows.length = h.recordCount)
    (hpos : 1 ≤ sumLen h.fields)
    (htail : t.length ≤ sumLen h.fields)
    (hok : ∀ row ∈ rows, exceptIsOk (parseRow db h.fields (row.drop 1)) = true)
    (hfuel : rows.flatten.length + t.length < fuel) :
    ((implIter db h.fields (sumLen h.fields) fuel rest).records).length =
      if t.isEmpty then h.recordCount - 1 else h.recordCount := by
  obtain ⟨h32, hslen, hrest⟩ := databaseParse_ok_inv s h rest hp
  have hdrop1 : (s.drop h.headerSize).drop 1 = s.drop (h.headerSize + 1) := by
    rw [List.drop_drop]
  have hrest2 : rest = (rows.flatten ++ t).drop 1 := by
    rw [hrest, ← hdecomp, hdrop1]
  have hs' : (rows.flatten ++ t).length < fuel := by
    rw [List.length_append]; omega
  have hmain := iterRefineAux db h.fields fuel (rows.flatten ++ t) hs'
  obtain ⟨recs, href, hreclen⟩ := refIter_rows db h.fields rows t fuel
    (fun row hr => by rw [hrowlen row hr, hrs])
    hok (by omega) hfuel
  rw [href] at hmain
  rw [hrest2, hmain]
  have hflat : rows.flatten.length = rows.length * (sumLen h.fields + 1) :=
    flatten_length_uniform _ rows (fun row hr => by rw [hrowlen row hr, hrs])
  simp only [refineExpect, IterResult.records, List.length_append]
  rw [hreclen, hflat]
  cases t with
  | nil =>
    simp only [List.length_nil, Nat.add_zero, List.isEmpty_nil, if_true]
    by_cases hn : rows.length = 0
    · have hrecs : recs = [] := List.length_eq_zero.mp (by omega)
      subst hrecs
      rw [if_neg (by rw [hn]; simp)]
      simp only [List.length_nil]
      omega
    · have hposA : 0 < rows.length * (sumLen h.fields + 1) :=
        Nat.mul_pos (by omega) (by omega)
      rw [if_pos ⟨by trivial, hposA⟩, List.length_dropLast, hreclen]
      omega
  | cons tb tt =>
    rw [if_neg (by
      intro hc
      obtain ⟨hc1, _⟩ := hc
      simp only [List.length_cons] at hc1
      omega)]
    simp only [List.isEmpty_cons, Bool.false_eq_true, if_false]
    rw [hreclen, hcount]

/-- C3 (witness for the amended theorem): `c3stream` extended with the
`0x1A` end-of-file byte yields exactly the advertised single record. -/
theorem recordCount_offByOne_witness :
    ((implIter db0 hdrC3.fields (sumLen hdrC3.fields) 10
        [65, 26]).records).length =
      if ([26] : List Nat).isEmpty then hdrC3.recordCount - 1
      else hdrC3.recordCount :=
  recordCount_offByOne db0 (c3stream ++ [26]) hdrC3 [65, 26] [[32, 65]] [26]
    10 (by decide) (by decide) (by decide) (by decide) (by decide) (by decide)
    (by decide) (by decide) (by decide)
